import Mathlib

/-!
Verification development for the FBNet-style differentiable NAS implementation
(`fbnet-pytorch/model.py`).  The Python code is shallowly embedded: feature
tensors are an abstract real module `T`, candidate blocks are opaque functions
`T → T`, batches are lists of examples, machine floats are modelled by `ℝ`,
and the Gumbel noise that `torch.nn.functional.gumbel_softmax` draws internally
is passed in explicitly (one noise vector per layer and per example).
-/

open scoped BigOperators

/-- An element of the `blocks` argument of `FBNet.__init__`: either a single
fixed module (`isinstance(b, nn.Module)`) or a list of candidate blocks
(`isinstance(b, list)`), each block an opaque feature transformer. -/
inductive Blk (T : Type) where
  | mod (f : T → T)
  | group (g : List (T → T))

/-- Discriminator for the `isinstance(b, nn.Module)` branch. -/
def Blk.isMod {T : Type} : Blk T → Bool
  | .mod _ => true
  | .group _ => false

/-- Discriminator for the `isinstance(b, list)` branch. -/
def Blk.isGroup {T : Type} : Blk T → Bool
  | .mod _ => false
  | .group _ => true

/-- Number of candidate blocks of a searchable element (0 for a fixed module). -/
def Blk.groupLen {T : Type} : Blk T → ℕ
  | .mod _ => 0
  | .group g => g.length

/-- `MixedOp.forward`: `sum over i of weights[..., i] * op_i(x)` for a single
example; each scalar weight multiplies the whole output tensor of its block
(`w * r` after the reshape). -/
def mixedOpForward {T : Type} [AddCommMonoid T] [Module ℝ T]
    (ops : List (T → T)) (weights : List ℝ) (x : T) : T :=
  (List.zipWith (fun op wi => wi • op x) ops weights).sum

/-- `nn.functional.gumbel_softmax(t, temperature)` applied to one row:
`softmax((logits + gumbel_noise) / temperature)`, with the Gumbel noise of that
row given explicitly. -/
noncomputable def listGumbel (τ : ℝ) (theta noise : List ℝ) : List ℝ :=
  let z := List.zipWith (fun a g => (a + g) / τ) theta noise
  let s := (z.map Real.exp).sum
  z.map (fun v => Real.exp v / s)

/-- Length of the leading run of fixed modules of `blocks`
(`input_conv_count` as stored by `FBNet.__init__` before the list scan). -/
def inputConvCount {T : Type} (blocks : List (Blk T)) : ℕ :=
  (blocks.takeWhile Blk.isMod).length

/-- Number of candidate groups anywhere in `blocks` (the `__init__` loop
`for b in blocks: if isinstance(b, list)` increments once per list). -/
def countGroups {T : Type} (blocks : List (Blk T)) : ℕ :=
  blocks.countP Blk.isGroup

/-- The theta vectors created by `FBNet.__init__`: one per candidate group in
`blocks`, each of the group's length, every entry initialised to `init_theta`
(`nn.init.constant_`). -/
def initTheta {T : Type} (blocks : List (Blk T)) (initThetaVal : ℝ) : List (List ℝ) :=
  blocks.filterMap (fun b =>
    match b with
    | .group g => some (List.replicate g.length initThetaVal)
    | .mod _ => none)

/-- Fixed modules forming the input stem (`self._input_conv`): the longest
leading run of fixed modules of `blocks`. -/
def inputConvFuns {T : Type} (blocks : List (Blk T)) : List (T → T) :=
  (blocks.takeWhile Blk.isMod).filterMap (fun b =>
    match b with
    | .mod f => some f
    | .group _ => none)

/-- Fixed modules forming `self._output_conv`: after the `__init__` scans,
`input_conv_count` equals the stem length plus the number of all groups, and the
output stem is the run of fixed modules of `blocks[input_conv_count:]`. -/
def outputConvFuns {T : Type} (blocks : List (Blk T)) : List (T → T) :=
  ((blocks.drop (inputConvCount blocks + countGroups blocks)).takeWhile Blk.isMod).filterMap
    (fun b =>
      match b with
      | .mod f => some f
      | .group _ => none)

/-- Sequential application of a list of modules (`nn.Sequential`). -/
def applySeq {T : Type} (fs : List (T → T)) (x : T) : T :=
  fs.foldl (fun a f => f a) x

/-- The `FBNet` module state after `__init__`: the block sequence, the theta
vectors, the parsed latency table (`self._speed`, one row of floats per line of
the speed file), the loss coefficients, and the tail of the network.  The
`avg_pool2d`/`reshape`/`nn.Linear` classifier tail acts independently on each
example and is kept opaque as a map from a feature tensor to the logits list. -/
structure FBNet (T : Type) where
  blocks : List (Blk T)
  theta : List (List ℝ)
  speed : List (List ℝ)
  alpha : ℝ
  beta : ℝ
  classifier : T → List ℝ

/-- `FBNet.__init__`: builds the theta vectors from the candidate groups and
enforces `assert len(self.theta) == 22`; a failing assertion aborts
construction, which is modelled by `none`. -/
def FBNet.make {T : Type} (blocks : List (Blk T)) (initThetaVal : ℝ)
    (speed : List (List ℝ)) (alpha beta : ℝ) (classifier : T → List ℝ) :
    Option (FBNet T) :=
  let th := initTheta blocks initThetaVal
  if th.length = 22 then
    some { blocks := blocks, theta := th, speed := speed,
           alpha := alpha, beta := beta, classifier := classifier }
  else
    none

/-- Per-example cross-entropy of `nn.CrossEntropyLoss` (before reduction):
`log (sum_j exp logits_j) - logits_target`. -/
noncomputable def ceExample (logits : List ℝ) (t : ℕ) : ℝ :=
  Real.log ((logits.map Real.exp).sum) - logits.getD t 0

/-- `torch.argmax` over one logits row: index of the (first) maximum. -/
noncomputable def argmaxList (l : List ℝ) : ℕ :=
  (List.range l.length).foldl (fun best i => if l.getD best 0 < l.getD i 0 then i else best) 0

/-- The searchable-layer loop of `FBNet.forward` (`for l_idx in range(
self._input_conv_count, len(self._blocks))`): while the current element is a
list of blocks, sample per-example Gumbel-Softmax weights from the current
theta vector, accumulate `torch.sum(weight * speed_row)` for the first
`blk_len` latency values of the current speed row, push the batch through the
`MixedOp`, and advance `theta_idx`; the loop exits at the first element that is
not a list.  The per-layer indexing `theta_idx` is modelled by consuming the
heads of the theta / speed / noise lists. -/
noncomputable def forwardLoop {T : Type} [AddCommMonoid T] [Module ℝ T] (τ : ℝ) :
    List (Blk T) → List (List ℝ) → List (List ℝ) → List (ℕ → List ℝ) →
    List T → List ℝ → List T × List ℝ
  | Blk.group g :: rest, thetas, speeds, noise, data, lat =>
      let θ := thetas.headD []
      let ns := noise.headD (fun _ => [])
      let weight := (List.range data.length).map (fun b => listGumbel τ θ (ns b))
      let speedRow := (speeds.headD []).take g.length
      let latC := (weight.map (fun wb => (List.zipWith (fun a b => a * b) wb speedRow).sum)).sum
      let data' := List.zipWith (fun wb x => mixedOpForward g wb x) weight data
      forwardLoop τ rest thetas.tail speeds.tail noise.tail data' (lat ++ [latC])
  | _, _, _, _, data, lat => (data, lat)

/-- The batch of logits rows computed by `FBNet.forward` together with the list
of per-layer latency contributions: input stem, searchable loop, output stem,
then the opaque pooled classifier per example. -/
noncomputable def FBNet.forwardCore {T : Type} [AddCommMonoid T] [Module ℝ T]
    (net : FBNet T) (input : List T) (noise : List (ℕ → List ℝ)) (τ : ℝ)
    (thetaList : Option (List (List ℝ))) : List (List ℝ) × List ℝ :=
  let data0 := input.map (applySeq (inputConvFuns net.blocks))
  let thetas := thetaList.getD net.theta
  let res := forwardLoop τ (net.blocks.drop (inputConvCount net.blocks)) thetas net.speed noise data0 []
  let data2 := res.1.map (applySeq (outputConvFuns net.blocks))
  (data2.map net.classifier, res.2)

/-- `FBNet.forward`: returns `(loss, ce, lat_loss, acc)`.
`self._criterion` is `nn.CrossEntropyLoss()` whose default reduction averages
the per-example losses over the batch, and the trailing `.sum()` on that scalar
is the identity; `lat_loss = torch.sum(lat) / batch_size`;
`loss = ce + alpha * lat_loss.pow(beta)`;
`acc = torch.sum(pred == target).float() / batch_size`. -/
noncomputable def FBNet.forward {T : Type} [AddCommMonoid T] [Module ℝ T]
    (net : FBNet T) (input : List T) (target : List ℕ) (noise : List (ℕ → List ℝ))
    (τ : ℝ := 5.0) (thetaList : Option (List (List ℝ)) := none) : ℝ × ℝ × ℝ × ℝ :=
  let n : ℝ := input.length
  let core := net.forwardCore input noise τ thetaList
  let logits := core.1
  let ce := (List.zipWith ceExample logits target).sum / n
  let latLoss := core.2.sum / n
  let loss := ce + net.alpha * Real.rpow latLoss net.beta
  let acc := (((logits.zip target).countP (fun p => argmaxList p.1 == p.2) : ℕ) : ℝ) / n
  (loss, ce, latLoss, acc)

/-- Claim-side per-layer latency formula (restating the spec text): for each
searchable layer, take the Gumbel-Softmax weight row of every example and dot
it with the first `blk_len` values of the layer's latency row; the layer's
contribution is the sum over the batch.  Consumes the per-layer lists exactly
as the loop does. -/
noncomputable def specLatList (τ : ℝ) (batch : ℕ) :
    List ℕ → List (List ℝ) → List (List ℝ) → List (ℕ → List ℝ) → List ℝ
  | bl :: bls, thetas, speeds, noise =>
      (((List.range batch).map (fun b =>
          (List.zipWith (fun a c => a * c)
            (listGumbel τ (thetas.headD []) ((noise.headD (fun _ => [])) b))
            ((speeds.headD []).take bl)).sum)).sum)
        :: specLatList τ batch bls thetas.tail speeds.tail noise.tail
  | [], _, _, _ => []

/-- Fin-indexed Gumbel-Softmax row, the analytic counterpart of `listGumbel`
used to reason about derivatives in the theta vector. -/
noncomputable def gumbelSoftmaxF {n : ℕ} (τ : ℝ) (g θ : Fin n → ℝ) (i : Fin n) : ℝ :=
  Real.exp ((θ i + g i) / τ) / ∑ j, Real.exp ((θ j + g j) / τ)

/-- The latency loss of `FBNet.forward` as a function of one layer's theta
vector: `C` is the (fixed) contribution of all other layers, `B` the batch
size, `g b` the Gumbel noise of example `b`, `s` the latency row of the layer
(`speed`), so the value is `(C + sum_b sum_i weight_{b,i} * s_i) / B`. -/
noncomputable def latencyLossOfTheta {n m : ℕ} (τ C B : ℝ) (g : Fin m → Fin n → ℝ)
    (s : Fin n → ℝ) (θ : Fin n → ℝ) : ℝ :=
  (C + ∑ b, ∑ i, gumbelSoftmaxF τ (g b) θ i * s i) / B

/-- The latency term of the combined loss, `alpha * lat_loss.pow(beta)`, as a
function of one layer's theta vector. -/
noncomputable def latencyTermOfTheta {n m : ℕ} (α β τ C B : ℝ) (g : Fin m → Fin n → ℝ)
    (s : Fin n → ℝ) (θ : Fin n → ℝ) : ℝ :=
  α * Real.rpow (latencyLossOfTheta τ C B g s θ) β

/-- Modelled from the spec: `AvgrageMeter` is defined in `utils.py`, which is
not part of the sources; spec section 3 describes it as an accumulator holding
a sum and a count per tracked quantity. -/
structure AvgrageMeter where
  sum : ℝ
  cnt : ℕ

/-- Modelled from the spec: one observation is added to the accumulator. -/
def AvgrageMeter.update (m : AvgrageMeter) (v : ℝ) : AvgrageMeter :=
  { sum := m.sum + v, cnt := m.cnt + 1 }

/-- Modelled from the spec: the accumulator is emptied. -/
def AvgrageMeter.reset (_m : AvgrageMeter) : AvgrageMeter :=
  { sum := 0, cnt := 0 }

/-- The metric/logging state threaded through `Trainer._step`: the four running
meters, the `tic` timestamp of the last flush, and the log lines emitted so far
(kept as `(epoch, step, speed)` triples). -/
structure TrainerLogState where
  accA : AvgrageMeter
  ceA : AvgrageMeter
  latA : AvgrageMeter
  lossA : AvgrageMeter
  tic : ℝ
  logs : List (ℕ × ℕ × ℝ)

/-- `Trainer._step`, given the `(loss, ce, lat, acc)` returned by the forward
pass and the two `time.time()` readings taken inside the flush branch: the four
meters are updated on every call; when `step > 1 and step % log_frequence == 0`
a log line with `speed = 1.0 * (batch_size * log_frequence) / (toc - tic)` is
appended and `tic` is refreshed.  The source then evaluates
`map(lambda avg: avg.reset(), [...])`, which under Python 3 builds a lazy
iterator that is never consumed, so no meter is ever reset; the embedding
therefore keeps the meters unchanged at a flush. -/
noncomputable def trainerStep (logFrequence epoch step batchSize : ℕ)
    (vals : ℝ × ℝ × ℝ × ℝ) (toc tic2 : ℝ) (st : TrainerLogState) : TrainerLogState :=
  let st1 := { st with
    accA := st.accA.update vals.2.2.2
    ceA := st.ceA.update vals.2.1
    latA := st.latA.update vals.2.2.1
    lossA := st.lossA.update vals.1 }
  if 1 < step ∧ step % logFrequence = 0 then
    let speed := 1.0 * ((batchSize : ℝ) * (logFrequence : ℝ)) / (toc - st1.tic)
    { st1 with logs := st1.logs ++ [(epoch, step, speed)], tic := tic2 }
  else
    st1

/-- Runs `Trainer._step` for steps `0, 1, ..., n-1` of one epoch with fixed
forward results, batch size and clock readings. -/
noncomputable def runTrainerSteps (logFrequence epoch batchSize : ℕ)
    (vals : ℝ × ℝ × ℝ × ℝ) (toc tic2 : ℝ) (n : ℕ) (st : TrainerLogState) : TrainerLogState :=
  (List.range n).foldl (fun s step => trainerStep logFrequence epoch step batchSize vals toc tic2 s) st

/-- Events observable in `Trainer.search`, parametrised by the type of batches
drawn from the data iterators. -/
inductive SEv (B : Type) where
  | trainW (b : B)
  | schedStep
  | trainT (b : B)
  | saveTheta (epoch : ℕ)
  | decayTemp
deriving DecidableEq

/-- One pass of weight training over `train_w_ds`: per batch, `self.train_w`
via `self._step`, then `self.w_sche.step()`. -/
def wPassTrace {B : Type} (wDS : List B) : List (SEv B) :=
  wDS.flatMap (fun b => [SEv.trainW b, SEv.schedStep])

/-- The warm-up loop `for epoch in range(start_w_epoch)` of `Trainer.search`,
modelled by recursion on the epoch count (each iteration appends one weight
pass). -/
def warmupTrace {B : Type} (wDS : List B) : ℕ → List (SEv B)
  | 0 => []
  | n + 1 => warmupTrace wDS n ++ wPassTrace wDS

/-- One pass of theta training over `train_t_ds` in epoch `e`: per batch,
`self.train_t` via `self._step`, then `self.save_theta(...)` with the file name
carrying `epoch + start_w_epoch`. -/
def tPassTrace {B : Type} (tDS : List B) (e : ℕ) : List (SEv B) :=
  tDS.flatMap (fun b => [SEv.trainT b, SEv.saveTheta e])

/-- The main loop `for epoch in range(total_epoch)` of `Trainer.search`:
each iteration is a theta pass (epoch numbered `epoch + start_w_epoch`),
one `self.decay_temperature()`, then a weight pass. -/
def mainTrace {B : Type} (wDS tDS : List B) (startW : ℕ) : ℕ → List (SEv B)
  | 0 => []
  | n + 1 => mainTrace wDS tDS startW n ++
      (tPassTrace tDS (n + startW) ++ [SEv.decayTemp] ++ wPassTrace wDS)

/-- `Trainer.search`: `assert start_w_epoch >= 1` (modelled by `none` on
violation), then the warm-up weight epochs followed by the alternating main
epochs. -/
def searchTrace {B : Type} (wDS tDS : List B) (totalEpoch startW : ℕ) :
    Option (List (SEv B)) :=
  if 1 ≤ startW then some (warmupTrace wDS startW ++ mainTrace wDS tDS startW totalEpoch)
  else none

/-- Claim-side search schedule, written from the words of the spec:
`start_w_epoch` epochs of pure weight training over `train_w_data` with a
scheduler advance after every step, then `total_epoch` epochs each consisting
of one full architecture pass over `train_t_data` saving theta after every
step, one temperature decay, and one full weight pass over `train_w_data`. -/
def searchSpecTrace {B : Type} (wDS tDS : List B) (totalEpoch startW : ℕ) : List (SEv B) :=
  (List.replicate startW (wDS.flatMap (fun b => [SEv.trainW b, SEv.schedStep]))).flatten ++
  ((List.range totalEpoch).map (fun e =>
      tDS.flatMap (fun b => [SEv.trainT b, SEv.saveTheta (e + startW)]) ++
      [SEv.decayTemp] ++
      wDS.flatMap (fun b => [SEv.trainW b, SEv.schedStep]))).flatten

/-- Python's `' '.join`: concatenates character-level tokens with a single
separator between consecutive tokens. -/
def joinSep (sep : Char) : List (List Char) → List Char
  | [] => []
  | [t] => t
  | t :: ts => t ++ sep :: joinSep sep ts

/-- Splitting a character list at every occurrence of `sep` (Python's
`str.split(sep)` for a one-character separator). -/
def splitOnChar (sep : Char) : List Char → List (List Char)
  | [] => [[]]
  | c :: cs =>
    let r := splitOnChar sep cs
    if c = sep then [] :: r
    else
      match r with
      | [] => [[c]]
      | t :: ts => (c :: t) :: ts

/-- `Trainer.save_theta`: for each theta vector, one line holding its values
joined by single spaces (the numeric rendering `str(...)` is an opaque
`render`); the in-memory list `res` of all vectors is returned as well. -/
def saveThetaFile (render : ℝ → List Char) (theta : List (List ℝ)) :
    List (List Char) × List (List ℝ) :=
  (theta.map (fun t => joinSep ' ' (t.map render)), theta)

lemma forwardLoop_nil {T : Type} [AddCommMonoid T] [Module ℝ T] (τ : ℝ)
    (θs sps : List (List ℝ)) (nss : List (ℕ → List ℝ)) (data : List T) (lat : List ℝ) :
    forwardLoop τ [] θs sps nss data lat = (data, lat) := rfl

lemma forwardLoop_mod {T : Type} [AddCommMonoid T] [Module ℝ T] (τ : ℝ) (f : T → T)
    (rest : List (Blk T)) (θs sps : List (List ℝ)) (nss : List (ℕ → List ℝ))
    (data : List T) (lat : List ℝ) :
    forwardLoop τ (Blk.mod f :: rest) θs sps nss data lat = (data, lat) := rfl

lemma forwardLoop_group {T : Type} [AddCommMonoid T] [Module ℝ T] (τ : ℝ) (g : List (T → T))
    (rest : List (Blk T)) (θs sps : List (List ℝ)) (nss : List (ℕ → List ℝ))
    (data : List T) (lat : List ℝ) :
    forwardLoop τ (Blk.group g :: rest) θs sps nss data lat =
      forwardLoop τ rest θs.tail sps.tail nss.tail
        (List.zipWith (fun wb x => mixedOpForward g wb x)
          ((List.range data.length).map (fun b => listGumbel τ (θs.headD []) ((nss.headD (fun _ => [])) b)))
          data)
        (lat ++ [(((List.range data.length).map (fun b => listGumbel τ (θs.headD []) ((nss.headD (fun _ => [])) b))).map
            (fun wb => (List.zipWith (fun a b => a * b) wb ((sps.headD []).take g.length)).sum)).sum]) := rfl

lemma initTheta_length {T : Type} (blocks : List (Blk T)) (v : ℝ) :
    (initTheta blocks v).length = countGroups blocks := by
  induction blocks with
  | nil => rfl
  | cons b rest ih =>
    cases b with
    | mod f => simpa [initTheta, countGroups, List.countP_cons, Blk.isGroup] using ih
    | group g => simpa [initTheta, countGroups, List.countP_cons, Blk.isGroup] using ih

lemma forwardLoop_fst_length {T : Type} [AddCommMonoid T] [Module ℝ T] (τ : ℝ) :
    ∀ (rem : List (Blk T)) (θs sps : List (List ℝ)) (nss : List (ℕ → List ℝ))
      (data : List T) (lat : List ℝ),
      (forwardLoop τ rem θs sps nss data lat).1.length = data.length := by
  intro rem
  induction rem with
  | nil => intro θs sps nss data lat; rfl
  | cons b rest ih =>
    intro θs sps nss data lat
    cases b with
    | mod f => rfl
    | group g =>
      rw [forwardLoop_group, ih]
      simp [List.length_zipWith]

lemma forwardLoop_snd {T : Type} [AddCommMonoid T] [Module ℝ T] (τ : ℝ) :
    ∀ (rem : List (Blk T)) (θs sps : List (List ℝ)) (nss : List (ℕ → List ℝ))
      (data : List T) (lat : List ℝ),
      (forwardLoop τ rem θs sps nss data lat).2 =
        lat ++ specLatList τ data.length ((rem.takeWhile Blk.isGroup).map Blk.groupLen) θs sps nss := by
  intro rem
  induction rem with
  | nil => intro θs sps nss data lat; simp [forwardLoop_nil, specLatList]
  | cons b rest ih =>
    intro θs sps nss data lat
    cases b with
    | mod f => simp [forwardLoop_mod, List.takeWhile, Blk.isMod, Blk.isGroup, specLatList]
    | group g =>
      rw [forwardLoop_group, ih]
      have hlen : (List.zipWith (fun wb x => mixedOpForward g wb x)
          ((List.range data.length).map (fun b => listGumbel τ (θs.headD []) ((nss.headD (fun _ => [])) b)))
          data).length = data.length := by
        simp [List.length_zipWith]
      rw [hlen]
      have htw : (Blk.group g :: rest).takeWhile Blk.isGroup =
          Blk.group g :: rest.takeWhile Blk.isGroup := by
        simp [List.takeWhile, Blk.isGroup]
      rw [htw]
      simp [specLatList, Blk.groupLen, List.map_map, Function.comp_def, List.append_assoc]

lemma specLatList_length (τ : ℝ) (batch : ℕ) :
    ∀ (bls : List ℕ) (θs sps : List (List ℝ)) (nss : List (ℕ → List ℝ)),
      (specLatList τ batch bls θs sps nss).length = bls.length := by
  intro bls
  induction bls with
  | nil => intro θs sps nss; rfl
  | cons bl bls ih => intro θs sps nss; simp [specLatList, ih]

/-- C5: constructing the network succeeds exactly when the blocks sequence
contains 22 candidate groups (the `assert len(self.theta) == 22` contract, one
theta vector being created per group), and in particular fails for 21 candidate
groups. -/
theorem c5_construction_contract {T : Type} :
    (∀ (blocks : List (Blk T)) (v : ℝ) (sp : List (List ℝ)) (a b : ℝ) (clf : T → List ℝ),
        (FBNet.make blocks v sp a b clf).isSome ↔ countGroups blocks = 22)
    ∧ (∀ (blocks : List (Blk T)) (v : ℝ) (sp : List (List ℝ)) (a b : ℝ) (clf : T → List ℝ),
        countGroups blocks = 21 → FBNet.make blocks v sp a b clf = none) := by
  constructor
  · intro blocks v sp a b clf
    rw [FBNet.make]
    simp only [initTheta_length]
    split_ifs with h <;> simp [h]
  · intro blocks v sp a b clf h
    rw [FBNet.make]
    simp only [initTheta_length]
    rw [h]
    simp

/-- C5 witness: a block sequence with exactly 21 candidate groups is rejected
by construction. -/
theorem c5_witness :
    countGroups (List.replicate 21 (Blk.group (T := Unit) [fun x => x])) = 21 ∧
    FBNet.make (List.replicate 21 (Blk.group (T := Unit) [fun x => x])) 1 [] 1 1 (fun _ => []) = none :=
  ⟨by decide, (c5_construction_contract (T := Unit)).2 _ 1 [] 1 1 (fun _ => []) (by decide)⟩

/-- C6: `MixedOp.forward` computes the weighted sum of the block outputs, each
scalar weight multiplying the whole output tensor of its block, and for a
one-hot weight vector concentrated at index `k` it returns block `k`'s output. -/
theorem c6_mixed_op_weighted_sum {T : Type} [AddCommMonoid T] [Module ℝ T] :
    (∀ (ops : List (T → T)) (w : List ℝ) (x : T), w.length = ops.length →
        mixedOpForward ops w x =
          ∑ i ∈ Finset.range ops.length, w.getD i 0 • (ops.getD i id) x)
    ∧ (∀ (ops : List (T → T)) (w : List ℝ) (x : T) (k : ℕ), w.length = ops.length →
        k < ops.length → (∀ i, i < ops.length → i ≠ k → w.getD i 0 = 0) →
        w.getD k 0 = 1 →
        mixedOpForward ops w x = (ops.getD k id) x) := by
  have first : ∀ (ops : List (T → T)) (w : List ℝ) (x : T), w.length = ops.length →
      mixedOpForward ops w x =
        ∑ i ∈ Finset.range ops.length, w.getD i 0 • (ops.getD i id) x := by
    intro ops
    induction ops with
    | nil => intro w x h; simp [mixedOpForward]
    | cons op ops' ih =>
      intro w x h
      cases w with
      | nil => simp at h
      | cons wi w' =>
        have h' : w'.length = ops'.length := by simpa using h
        have hstep : mixedOpForward (op :: ops') (wi :: w') x =
            wi • op x + mixedOpForward ops' w' x := by
          simp [mixedOpForward]
        rw [hstep, ih w' x h', List.length_cons, Finset.sum_range_succ']
        simp [add_comm]
  refine ⟨first, ?_⟩
  intro ops w x k hlen hk hzero hone
  rw [first ops w x hlen]
  rw [Finset.sum_eq_single k]
  · rw [hone, one_smul]
  · intro i hi hik
    rw [hzero i (Finset.mem_range.mp hi) hik, zero_smul]
  · intro hk'
    exact absurd (Finset.mem_range.mpr hk) hk'

/-- C6 witness: for two candidate blocks and the one-hot weight vector `[0, 1]`
the mixed operation returns the second block's output. -/
theorem c6_witness :
    (([0, 1] : List ℝ).length = ([fun _ => (5 : ℝ), fun x => x + 1] : List (ℝ → ℝ)).length) ∧
    (1 < ([fun _ => (5 : ℝ), fun x => x + 1] : List (ℝ → ℝ)).length) ∧
    (([0, 1] : List ℝ).getD 1 0 = 1) ∧
    mixedOpForward [fun _ => (5 : ℝ), fun x => x + 1] [0, 1] 3 =
      (([fun _ => (5 : ℝ), fun x => x + 1] : List (ℝ → ℝ)).getD 1 id) 3 := by
  refine ⟨by simp, by simp, by simp, ?_⟩
  exact (c6_mixed_op_weighted_sum (T := ℝ)).2 [fun _ => (5 : ℝ), fun x => x + 1] [0, 1] 3 1
    (by simp) (by simp)
    (by
      intro i hi hik
      have hi2 : i < 2 := by simpa using hi
      interval_cases i
      · simp
      · exact absurd rfl hik)
    (by simp)

/-- C9: when a `theta_list` is supplied to `FBNet.forward`, the stored
architecture parameters are irrelevant (any two values of `self.theta` give
the same result), the selection weights come from the supplied list (the call
behaves exactly like a network whose stored theta equals that list), and the
temperature argument defaults to `5.0`. -/
theorem c9_theta_list_override {T : Type} [AddCommMonoid T] [Module ℝ T] :
    (∀ (net : FBNet T) (θ' L : List (List ℝ)) (input : List T) (target : List ℕ)
        (noise : List (ℕ → List ℝ)) (τ : ℝ),
        FBNet.forward { net with theta := θ' } input target noise τ (some L) =
          FBNet.forward net input target noise τ (some L))
    ∧ (∀ (net : FBNet T) (L : List (List ℝ)) (input : List T) (target : List ℕ)
        (noise : List (ℕ → List ℝ)) (τ : ℝ),
        FBNet.forward net input target noise τ (some L) =
          FBNet.forward { net with theta := L } input target noise τ none)
    ∧ (∀ (net : FBNet T) (input : List T) (target : List ℕ) (noise : List (ℕ → List ℝ)),
        FBNet.forward net input target noise =
          FBNet.forward net input target noise 5.0 none) :=
  ⟨fun _ _ _ _ _ _ _ => rfl, fun _ _ _ _ _ _ => rfl, fun _ _ _ _ => rfl⟩

/-- C10: the forward loop over searchable layers stops at the first element
that is not a list of blocks, so the number of latency contributions equals the
length of the contiguous run of candidate groups at the start of the scanned
suffix, while construction creates one theta vector per candidate group
anywhere in the sequence; with a fixed block between two candidate groups the
later group is silently skipped (the result does not depend on its blocks and
no latency is accumulated for it: one latency entry against two counted
groups). -/
theorem c10_loop_stops_at_first_fixed_block {T : Type} [AddCommMonoid T] [Module ℝ T] (τ : ℝ) :
    (∀ (rem : List (Blk T)) (θs sps : List (List ℝ)) (nss : List (ℕ → List ℝ)) (data : List T),
        ((forwardLoop τ rem θs sps nss data []).2).length = (rem.takeWhile Blk.isGroup).length)
    ∧ (∀ (blocks : List (Blk T)) (v : ℝ), (initTheta blocks v).length = countGroups blocks)
    ∧ (∀ (h k₁ k₂ : T → T) (g : List (T → T)) (θs sps : List (List ℝ))
        (nss : List (ℕ → List ℝ)) (data : List T) (lat0 : List ℝ),
        forwardLoop τ [Blk.group g, Blk.mod h, Blk.group [k₁]] θs sps nss data lat0 =
          forwardLoop τ [Blk.group g, Blk.mod h, Blk.group [k₂]] θs sps nss data lat0)
    ∧ (∀ (h k : T → T) (g : List (T → T)),
        (List.takeWhile Blk.isGroup [Blk.group g, Blk.mod h, Blk.group [k]]).length = 1 ∧
          countGroups [Blk.group (T := T) g, Blk.mod h, Blk.group [k]] = 2) := by
  refine ⟨?_, ?_, ?_, ?_⟩
  · intro rem θs sps nss data
    rw [forwardLoop_snd]
    simp [specLatList_length]
  · intro blocks v
    exact initTheta_length blocks v
  · intro h k₁ k₂ g θs sps nss data lat0
    rw [forwardLoop_group, forwardLoop_group, forwardLoop_mod, forwardLoop_mod]
  · intro h k g
    constructor
    · simp [List.takeWhile, Blk.isGroup]
    · simp [countGroups, List.countP_cons, Blk.isGroup]

lemma headD_eq_getD {α : Type} (l : List α) (d : α) : l.headD d = l.getD 0 d := by
  cases l <;> rfl

lemma tail_getD {α : Type} (l : List α) (i : ℕ) (d : α) : l.tail.getD i d = l.getD (i + 1) d := by
  cases l <;> simp [List.getD]

lemma specLatList_speed_take (τ : ℝ) (batch : ℕ) :
    ∀ (bls : List ℕ) (θs sps sps' : List (List ℝ)) (nss : List (ℕ → List ℝ)),
      (∀ i, (sps'.getD i []).take (bls.getD i 0) = (sps.getD i []).take (bls.getD i 0)) →
      specLatList τ batch bls θs sps' nss = specLatList τ batch bls θs sps nss := by
  intro bls
  induction bls with
  | nil => intro θs sps sps' nss h; rfl
  | cons bl bls ih =>
    intro θs sps sps' nss h
    have h0 : (sps'.headD []).take bl = (sps.headD []).take bl := by
      rw [headD_eq_getD, headD_eq_getD]
      exact h 0
    have hrec := ih θs.tail sps.tail sps'.tail nss.tail (fun i => by
      have := h (i + 1)
      simpa [tail_getD] using this)
    simp only [specLatList, h0, hrec]

/-- C3: for each searchable layer the latency contribution is the sum over the
batch of the dot product of the example's Gumbel-Softmax weight row with the
first `blk_len` values of the layer's latency row (`specLatList` is exactly
that formula, layer by layer); the latency loss returned by `FBNet.forward`
is the sum of these per-layer contributions divided by the batch size, and
latency values of a row beyond the layer's candidate count never influence the
result (rows agreeing on their first `blk_len` values are interchangeable). -/
theorem c3_latency_loss_formula {T : Type} [AddCommMonoid T] [Module ℝ T] :
    (∀ (net : FBNet T) (input : List T) (target : List ℕ) (noise : List (ℕ → List ℝ))
        (τ : ℝ) (tl : Option (List (List ℝ))),
        (FBNet.forward net input target noise τ tl).2.2.1 =
          (specLatList τ input.length
            (((net.blocks.drop (inputConvCount net.blocks)).takeWhile Blk.isGroup).map Blk.groupLen)
            (tl.getD net.theta) net.speed noise).sum / input.length)
    ∧ (∀ (τ : ℝ) (batch : ℕ) (bls : List ℕ) (θs sps sps' : List (List ℝ))
        (nss : List (ℕ → List ℝ)),
        (∀ i, (sps'.getD i []).take (bls.getD i 0) = (sps.getD i []).take (bls.getD i 0)) →
        specLatList τ batch bls θs sps' nss = specLatList τ batch bls θs sps nss) := by
  constructor
  · intro net input target noise τ tl
    simp only [FBNet.forward, FBNet.forwardCore, forwardLoop_snd, List.nil_append,
      List.length_map]
  · intro τ batch bls θs sps sps' nss h
    exact specLatList_speed_take τ batch bls θs sps sps' nss h

/-- C3 witness: a latency row `[2, 9]` with a trailing extra value behaves like
the row `[2]` for a layer with one candidate. -/
theorem c3_witness :
    (∀ i, ((([[2, 9]] : List (List ℝ)).getD i []).take (([1] : List ℕ).getD i 0)) =
        ((([[2]] : List (List ℝ)).getD i []).take (([1] : List ℕ).getD i 0))) ∧
    specLatList 1 1 [1] [[0]] [[2, 9]] [fun _ => [0]] =
      specLatList 1 1 [1] [[0]] [[2]] [fun _ => [0]] := by
  have h : ∀ i, ((([[2, 9]] : List (List ℝ)).getD i []).take (([1] : List ℕ).getD i 0)) =
      ((([[2]] : List (List ℝ)).getD i []).take (([1] : List ℕ).getD i 0)) := by
    intro i
    match i with
    | 0 => rfl
    | n + 1 => simp [List.getD]
  exact ⟨h, (c3_latency_loss_formula (T := ℝ)).2 1 1 [1] [[0]] [[2]] [[2, 9]] [fun _ => [0]] h⟩

lemma flatten_replicate_comm {α : Type} (L : List α) :
    ∀ n, L ++ (List.replicate n L).flatten = (List.replicate n L).flatten ++ L := by
  intro n
  induction n with
  | zero => simp
  | succ n ih =>
    calc L ++ (List.replicate (n + 1) L).flatten
        = L ++ (L ++ (List.replicate n L).flatten) := by
          simp [List.replicate_succ]
      _ = L ++ ((List.replicate n L).flatten ++ L) := by rw [ih]
      _ = (L ++ (List.replicate n L).flatten) ++ L := by rw [List.append_assoc]
      _ = (List.replicate (n + 1) L).flatten ++ L := by simp [List.replicate_succ]

lemma warmupTrace_eq {B : Type} (wDS : List B) :
    ∀ n, warmupTrace wDS n = (List.replicate n (wPassTrace wDS)).flatten := by
  intro n
  induction n with
  | zero => rfl
  | succ n ih =>
    simp only [warmupTrace, ih, List.replicate_succ, List.flatten_cons]
    rw [flatten_replicate_comm]

lemma mainTrace_eq {B : Type} (wDS tDS : List B) (sw : ℕ) :
    ∀ n, mainTrace wDS tDS sw n =
      ((List.range n).map (fun e =>
        tPassTrace tDS (e + sw) ++ [SEv.decayTemp] ++ wPassTrace wDS)).flatten := by
  intro n
  induction n with
  | zero => rfl
  | succ n ih =>
    simp only [mainTrace, ih, List.range_succ, List.map_append, List.flatten_append,
      List.map_cons, List.map_nil, List.flatten_cons, List.flatten_nil, List.append_nil]

/-- C7: `Trainer.search` requires `start_w_epoch >= 1` (the assertion aborts
otherwise) and then executes exactly the schedule the spec describes:
`start_w_epoch` weight epochs over `train_w_data` (each step followed by one
scheduler advance), then `total_epoch` epochs, each one full theta pass over
`train_t_data` with a theta save (named with `epoch + start_w_epoch`) after
every step, one temperature decay, and one full weight pass (weight-training
steps advance the scheduler in both phases). -/
theorem c7_search_schedule {B : Type} :
    (∀ (wDS tDS : List B) (totalEpoch startW : ℕ), 1 ≤ startW →
        searchTrace wDS tDS totalEpoch startW =
          some (searchSpecTrace wDS tDS totalEpoch startW))
    ∧ (∀ (wDS tDS : List B) (totalEpoch : ℕ), searchTrace wDS tDS totalEpoch 0 = none) := by
  constructor
  · intro wDS tDS totalEpoch startW h
    rw [searchTrace, if_pos h]
    rw [warmupTrace_eq, mainTrace_eq]
    rfl
  · intro wDS tDS totalEpoch
    rw [searchTrace]
    simp

/-- C7 witness: with one warm-up epoch, one main epoch, and singleton data
iterators, the trace is the spec schedule. -/
theorem c7_witness :
    1 ≤ 1 ∧
    searchTrace ([0] : List ℕ) [1] 1 1 = some (searchSpecTrace ([0] : List ℕ) [1] 1 1) :=
  ⟨le_refl 1, (c7_search_schedule (B := ℕ)).1 [0] [1] 1 1 (le_refl 1)⟩

lemma splitOnChar_no_sep (sep : Char) :
    ∀ (t : List Char), sep ∉ t → splitOnChar sep t = [t] := by
  intro t
  induction t with
  | nil => intro h; rfl
  | cons c cs ih =>
    intro h
    have hc : ¬(c = sep) := fun hcs => h (hcs ▸ List.mem_cons_self c cs)
    have hcs : sep ∉ cs := fun hm => h (List.mem_cons_of_mem c hm)
    simp [splitOnChar, hc, ih hcs]

lemma splitOnChar_append (sep : Char) :
    ∀ (t r : List Char), sep ∉ t →
      splitOnChar sep (t ++ sep :: r) = t :: splitOnChar sep r := by
  intro t
  induction t with
  | nil => intro r h; simp [splitOnChar]
  | cons c cs ih =>
    intro r h
    have hc : ¬(c = sep) := fun hcs => h (hcs ▸ List.mem_cons_self c cs)
    have hcs : sep ∉ cs := fun hm => h (List.mem_cons_of_mem c hm)
    simp [splitOnChar, hc, ih r hcs]

lemma splitOnChar_joinSep (sep : Char) :
    ∀ (toks : List (List Char)), toks ≠ [] → (∀ t ∈ toks, sep ∉ t) →
      splitOnChar sep (joinSep sep toks) = toks := by
  intro toks
  induction toks with
  | nil => intro h; exact absurd rfl h
  | cons t ts ih =>
    intro _ hsep
    cases ts with
    | nil => exact splitOnChar_no_sep sep t (hsep t (List.mem_cons_self t []))
    | cons t2 ts2 =>
      have hjoin : joinSep sep (t :: t2 :: ts2) = t ++ sep :: joinSep sep (t2 :: ts2) := rfl
      rw [hjoin, splitOnChar_append sep t _ (hsep t (List.mem_cons_self t _)),
        ih (by simp) (fun u hu => hsep u (List.mem_cons_of_mem t hu))]

/-- C8: `save_theta` writes one line per theta vector, the vector's values
joined by single spaces, in vector order, and returns the in-memory list of
vectors; the file has as many lines as theta vectors and splitting any line at
the separator yields exactly as many tokens as the vector has entries
(assuming the numeric rendering produces space-free tokens and every vector is
nonempty). -/
theorem c8_save_theta (render : ℝ → List Char) (theta : List (List ℝ))
    (hr : ∀ x, ' ' ∉ render x) (hne : ∀ t ∈ theta, t ≠ []) :
    (saveThetaFile render theta).2 = theta
    ∧ (saveThetaFile render theta).1.length = theta.length
    ∧ ∀ i, i < theta.length →
        (splitOnChar ' ' ((saveThetaFile render theta).1.getD i [])).length =
          (theta.getD i []).length := by
  refine ⟨rfl, by simp [saveThetaFile], ?_⟩
  intro i hi
  have hmap : ((saveThetaFile render theta).1.getD i []) =
      joinSep ' ' ((theta.getD i []).map render) := by
    rw [saveThetaFile]
    rw [List.getD_eq_getElem (theta.map (fun t => joinSep ' ' (t.map render))) []
      (by simpa using hi)]
    rw [List.getElem_map, List.getD_eq_getElem theta [] hi]
  rw [hmap]
  have hmem : theta.getD i [] ∈ theta := by
    rw [List.getD_eq_getElem theta [] hi]
    exact List.getElem_mem hi
  have hne' : (theta.getD i []).map render ≠ [] := by
    simpa using hne _ hmem
  have hsep : ∀ u ∈ (theta.getD i []).map render, ' ' ∉ u := by
    intro u hu
    rcases List.mem_map.mp hu with ⟨x, _, rfl⟩
    exact hr x
  rw [splitOnChar_joinSep ' ' _ hne' hsep, List.length_map]

/-- C8 witness: two vectors, a constant space-free rendering; the saved file
has two lines whose token counts are the vector lengths. -/
theorem c8_witness :
    (∀ x : ℝ, ' ' ∉ (fun _ : ℝ => ['1']) x) ∧
    (∀ t ∈ ([[1], [2, 3]] : List (List ℝ)), t ≠ []) ∧
    ((saveThetaFile (fun _ => ['1']) [[1], [2, 3]]).2 = ([[1], [2, 3]] : List (List ℝ))
      ∧ (saveThetaFile (fun _ => ['1']) [[1], [2, 3]]).1.length =
          ([[1], [2, 3]] : List (List ℝ)).length
      ∧ ∀ i, i < ([[1], [2, 3]] : List (List ℝ)).length →
          (splitOnChar ' '
            ((saveThetaFile (fun _ : ℝ => ['1']) [[1], [2, 3]]).1.getD i [])).length =
            (([[1], [2, 3]] : List (List ℝ)).getD i []).length) := by
  have h1 : ∀ x : ℝ, ' ' ∉ (fun _ : ℝ => ['1']) x := by
    intro x
    show ' ' ∉ ['1']
    decide
  have h2 : ∀ t ∈ ([[1], [2, 3]] : List (List ℝ)), t ≠ [] := by
    intro t ht
    simp only [List.mem_cons, List.not_mem_nil, or_false] at ht
    rcases ht with rfl | rfl <;> simp
  exact ⟨h1, h2, c8_save_theta (fun _ => ['1']) [[1], [2, 3]] h1 h2⟩

/-- The metric state at the start of training: empty meters, `tic` set by
`Trainer.search`, no log lines yet. -/
noncomputable def initLogState (tic0 : ℝ) : TrainerLogState :=
  { accA := { sum := 0, cnt := 0 }, ceA := { sum := 0, cnt := 0 },
    latA := { sum := 0, cnt := 0 }, lossA := { sum := 0, cnt := 0 },
    tic := tic0, logs := [] }

/-- C4: `Trainer._step` updates all four meters on every step and flushes a
log line exactly at the steps with `step > 1 and step % log_frequence == 0`,
but the meters are never reset afterwards: with `log_frequence = 2` and five
steps `0..4` two log lines are emitted (steps 2 and 4) while every meter has
counted all five updates.  Under the claimed reset-after-flush behaviour the
counts after the flush at step 4 would be `0`; the source's
`map(lambda avg: avg.reset(), [...])` is a lazy iterator in Python 3 that is
never consumed, so the resets never execute. -/
theorem c4_meters_never_reset :
    (runTrainerSteps 2 0 8 (1, 1, 1, 1) 1 1 5 (initLogState 0)).lossA.cnt = 5 ∧
    (runTrainerSteps 2 0 8 (1, 1, 1, 1) 1 1 5 (initLogState 0)).accA.cnt = 5 ∧
    (runTrainerSteps 2 0 8 (1, 1, 1, 1) 1 1 5 (initLogState 0)).ceA.cnt = 5 ∧
    (runTrainerSteps 2 0 8 (1, 1, 1, 1) 1 1 5 (initLogState 0)).latA.cnt = 5 ∧
    ((runTrainerSteps 2 0 8 (1, 1, 1, 1) 1 1 5 (initLogState 0)).logs.map
        (fun l => (l.1, l.2.1))) = [(0, 2), (0, 4)] := by
  refine ⟨rfl, rfl, rfl, rfl, rfl⟩

lemma forwardCore_fst_length {T : Type} [AddCommMonoid T] [Module ℝ T]
    (net : FBNet T) (input : List T) (noise : List (ℕ → List ℝ)) (τ : ℝ)
    (tl : Option (List (List ℝ))) :
    (net.forwardCore input noise τ tl).1.length = input.length := by
  simp [FBNet.forwardCore, forwardLoop_fst_length]

/-- C2 (amended): the returned cross-entropy is the MEAN over the batch of the
per-example cross-entropies (the default reduction of `nn.CrossEntropyLoss`;
the trailing `.sum()` acts on a scalar), the combined loss is that
cross-entropy plus `alpha` times the latency loss to the power `beta`, and the
accuracy is the fraction of examples whose arg-max logit equals the target,
hence lies in `[0, 1]`. -/
theorem c2_outputs_amended {T : Type} [AddCommMonoid T] [Module ℝ T]
    (net : FBNet T) (input : List T) (target : List ℕ) (noise : List (ℕ → List ℝ))
    (τ : ℝ) (tl : Option (List (List ℝ))) (h : input ≠ []) :
    (FBNet.forward net input target noise τ tl).2.1 =
      (List.zipWith ceExample (net.forwardCore input noise τ tl).1 target).sum / input.length
    ∧ (FBNet.forward net input target noise τ tl).1 =
      (FBNet.forward net input target noise τ tl).2.1 +
        net.alpha * Real.rpow (FBNet.forward net input target noise τ tl).2.2.1 net.beta
    ∧ (FBNet.forward net input target noise τ tl).2.2.2 =
      (((((net.forwardCore input noise τ tl).1.zip target).countP
          (fun p => argmaxList p.1 == p.2) : ℕ) : ℝ)) / input.length
    ∧ 0 ≤ (FBNet.forward net input target noise τ tl).2.2.2
    ∧ (FBNet.forward net input target noise τ tl).2.2.2 ≤ 1 := by
  have hn : (0 : ℝ) < input.length := by
    exact_mod_cast List.length_pos.mpr h
  have hacc : (FBNet.forward net input target noise τ tl).2.2.2 =
      (((((net.forwardCore input noise τ tl).1.zip target).countP
          (fun p => argmaxList p.1 == p.2) : ℕ) : ℝ)) / input.length := rfl
  refine ⟨rfl, rfl, hacc, ?_, ?_⟩
  · rw [hacc]
    exact div_nonneg (Nat.cast_nonneg _) (Nat.cast_nonneg _)
  · rw [hacc, div_le_one hn]
    have hcnt : (((net.forwardCore input noise τ tl).1.zip target).countP
        (fun p => argmaxList p.1 == p.2)) ≤ input.length := by
      refine le_trans (List.countP_le_length _) ?_
      rw [List.length_zip, forwardCore_fst_length]
      exact min_le_left _ _
    exact_mod_cast hcnt

lemma zipWith_mul_zero_sum :
    ∀ (wb row : List ℝ), (∀ v ∈ row, v = 0) →
      (List.zipWith (fun a b => a * b) wb row).sum = 0 := by
  intro wb
  induction wb with
  | nil => intro row h; simp
  | cons a as ih =>
    intro row h
    cases row with
    | nil => simp
    | cons b bs =>
      have hb : b = 0 := h b (List.mem_cons_self b bs)
      have hbs : ∀ v ∈ bs, v = 0 := fun v hv => h v (List.mem_cons_of_mem b hv)
      simp [hb, ih bs hbs]

lemma mixedOp_zero_block (wb : List ℝ) (x : ℝ) :
    mixedOpForward [fun _ => (0 : ℝ)] wb x = 0 := by
  cases wb with
  | nil => simp [mixedOpForward]
  | cons w ws => simp [mixedOpForward]

lemma loop_zero_blocks (τ : ℝ) :
    ∀ (k : ℕ) (θs sps : List (List ℝ)) (nss : List (ℕ → List ℝ)) (data lat0 : List ℝ),
      (∀ r ∈ sps, ∀ v ∈ r, v = 0) →
      forwardLoop τ (List.replicate k (Blk.group [fun _ => (0 : ℝ)])) θs sps nss data lat0 =
        (if k = 0 then data else List.replicate data.length 0,
          lat0 ++ List.replicate k 0) := by
  intro k
  induction k with
  | zero => intro θs sps nss data lat0 h; simp [forwardLoop_nil]
  | succ k ih =>
    intro θs sps nss data lat0 h
    rw [List.replicate_succ, forwardLoop_group]
    have hrow : ∀ v ∈ (sps.headD []).take ([fun _ => (0 : ℝ)] : List (ℝ → ℝ)).length, v = 0 := by
      intro v hv
      have hv' : v ∈ sps.headD [] := List.mem_of_mem_take hv
      cases sps with
      | nil => simp at hv'
      | cons r rs => exact h r (List.mem_cons_self r rs) v hv'
    have hlatC : (((List.range data.length).map
          (fun b => listGumbel τ (θs.headD []) ((nss.headD (fun _ => [])) b))).map
        (fun wb => (List.zipWith (fun a b => a * b) wb
          ((sps.headD []).take ([fun _ => (0 : ℝ)] : List (ℝ → ℝ)).length)).sum)).sum = 0 := by
      apply List.sum_eq_zero
      intro x hx
      rcases List.mem_map.mp hx with ⟨wb, _, rfl⟩
      exact zipWith_mul_zero_sum wb _ hrow
    have hdata : (List.zipWith (fun wb x => mixedOpForward [fun _ => (0 : ℝ)] wb x)
        ((List.range data.length).map
          (fun b => listGumbel τ (θs.headD []) ((nss.headD (fun _ => [])) b))) data)
        = List.replicate data.length (0 : ℝ) := by
      apply List.ext_getElem
      · simp [List.length_zipWith]
      · intro i h1 h2
        simp [List.getElem_zipWith, mixedOp_zero_block]
    rw [hdata, hlatC]
    rw [ih θs.tail sps.tail nss.tail (List.replicate data.length 0) (lat0 ++ [0])
      (fun r hr => h r (List.mem_of_mem_tail hr))]
    cases k with
    | zero => simp
    | succ k => simp [List.replicate_succ, List.append_assoc]

lemma countGroups_replicate_group {T : Type} (k : ℕ) (g : List (T → T)) :
    countGroups (List.replicate k (Blk.group g)) = k := by
  induction k with
  | zero => rfl
  | succ k ih =>
    simp only [countGroups, List.replicate_succ, List.countP_cons] at ih ⊢
    simp [Blk.isGroup, ih]

/-- A concrete 22-group network over scalar features: every candidate group is
the single constant-zero block, every latency row is `[0]`, the classifier
emits two zero logits, and the coefficients are the source defaults
`alpha = 0.2`, `beta = 0.6`. -/
noncomputable def exNet : FBNet ℝ :=
  { blocks := List.replicate 22 (Blk.group [fun _ => (0 : ℝ)])
    theta := List.replicate 22 [1]
    speed := List.replicate 22 [0]
    alpha := 1 / 5
    beta := 3 / 5
    classifier := fun _ => [0, 0] }

/-- Per-layer Gumbel noise for the concrete network: zero noise everywhere. -/
def exNoise : List (ℕ → List ℝ) := List.replicate 22 (fun _ => [0])

lemma exNet_core :
    FBNet.forwardCore exNet [0, 0] exNoise 5 none = ([[0, 0], [0, 0]], List.replicate 22 (0 : ℝ)) := by
  have hz : ∀ r ∈ List.replicate 22 ([0] : List ℝ), ∀ v ∈ r, v = 0 := by
    intro r hr v hv
    rw [List.eq_of_mem_replicate hr] at hv
    simpa using hv
  have hstem : inputConvFuns exNet.blocks = [] := by
    simp [exNet, inputConvFuns, List.replicate_succ, List.takeWhile_cons, Blk.isMod]
  have hcount0 : inputConvCount exNet.blocks = 0 := by
    simp [exNet, inputConvCount, List.replicate_succ, List.takeWhile_cons, Blk.isMod]
  have hkg : countGroups exNet.blocks = 22 := countGroups_replicate_group 22 _
  have hout : outputConvFuns exNet.blocks = [] := by
    have hdrop : exNet.blocks.drop (inputConvCount exNet.blocks + countGroups exNet.blocks) = [] := by
      apply List.drop_eq_nil_of_le
      rw [hcount0, hkg]
      have hlen : exNet.blocks.length = 22 := List.length_replicate 22 _
      omega
    simp [outputConvFuns, hdrop]
  have hloop := loop_zero_blocks 5 22 (List.replicate 22 [1]) (List.replicate 22 [0])
    exNoise [0, 0] [] hz
  rw [FBNet.forwardCore]
  simp only [hstem, hcount0, List.drop_zero, Option.getD_none]
  have hdata0 : List.map (applySeq ([] : List (ℝ → ℝ))) [0, 0] = ([0, 0] : List ℝ) := by
    simp [applySeq]
  rw [hdata0]
  have hblocks : exNet.blocks = List.replicate 22 (Blk.group [fun _ => (0 : ℝ)]) := rfl
  have hth : exNet.theta = List.replicate 22 [1] := rfl
  have hsp : exNet.speed = List.replicate 22 [0] := rfl
  rw [hblocks, hth, hsp, hloop]
  simp [hout, applySeq, exNet]

/-- C2 counterexample: on a concrete 22-group network with a batch of two
identical examples, the returned cross-entropy (`log 2`, the batch mean) is
not the sum over the batch of the per-example cross-entropies (`2 * log 2`),
refuting the claim that the returned cross-entropy is the batch sum. -/
theorem c2_ce_is_mean_not_sum :
    (FBNet.forward exNet [0, 0] [0, 0] exNoise 5 none).2.1 ≠
      (List.zipWith ceExample (FBNet.forwardCore exNet [0, 0] exNoise 5 none).1 [0, 0]).sum := by
  have hce : ceExample [0, 0] 0 = Real.log 2 := by
    simp [ceExample, Real.exp_zero]
    norm_num
  have hS : (List.zipWith ceExample (FBNet.forwardCore exNet [0, 0] exNoise 5 none).1 [0, 0]).sum
      = 2 * Real.log 2 := by
    rw [exNet_core]
    simp [hce]
    ring
  have hL : (FBNet.forward exNet [0, 0] [0, 0] exNoise 5 none).2.1 =
      (List.zipWith ceExample (FBNet.forwardCore exNet [0, 0] exNoise 5 none).1 [0, 0]).sum /
        ((([0, 0] : List ℝ).length : ℕ) : ℝ) := rfl
  rw [hL, hS]
  have hp : 0 < Real.log 2 := Real.log_pos (by norm_num)
  intro hcontra
  rw [List.length_cons, List.length_cons, List.length_nil] at hcontra
  norm_num at hcontra

/-- C2 witness: the amended statement instantiated on the concrete network and
a nonempty batch. -/
theorem c2_witness :
    (([0, 0] : List ℝ) ≠ []) ∧
    ((FBNet.forward exNet [0, 0] [0, 0] exNoise 5 none).2.1 =
        (List.zipWith ceExample (exNet.forwardCore [0, 0] exNoise 5 none).1 [0, 0]).sum /
          (([0, 0] : List ℝ)).length
      ∧ (FBNet.forward exNet [0, 0] [0, 0] exNoise 5 none).1 =
        (FBNet.forward exNet [0, 0] [0, 0] exNoise 5 none).2.1 +
          exNet.alpha *
            Real.rpow (FBNet.forward exNet [0, 0] [0, 0] exNoise 5 none).2.2.1 exNet.beta
      ∧ (FBNet.forward exNet [0, 0] [0, 0] exNoise 5 none).2.2.2 =
        (((((exNet.forwardCore [0, 0] exNoise 5 none).1.zip [0, 0]).countP
            (fun p => argmaxList p.1 == p.2) : ℕ) : ℝ)) / (([0, 0] : List ℝ)).length
      ∧ 0 ≤ (FBNet.forward exNet [0, 0] [0, 0] exNoise 5 none).2.2.2
      ∧ (FBNet.forward exNet [0, 0] [0, 0] exNoise 5 none).2.2.2 ≤ 1) :=
  ⟨by simp, c2_outputs_amended exNet [0, 0] [0, 0] exNoise 5 none (by simp)⟩

lemma zipWith_ofFn {α β γ : Type} (f : α → β → γ) :
    ∀ {n : ℕ} (a : Fin n → α) (b : Fin n → β),
      List.zipWith f (List.ofFn a) (List.ofFn b) = List.ofFn (fun i => f (a i) (b i)) := by
  intro n
  induction n with
  | zero => intro a b; simp
  | succ n ih =>
    intro a b
    rw [List.ofFn_succ, List.ofFn_succ, List.zipWith_cons_cons, ih]
    exact (List.ofFn_succ (fun i => f (a i) (b i))).symm

lemma listGumbel_ofFn {n : ℕ} (τ : ℝ) (θ g : Fin n → ℝ) :
    listGumbel τ (List.ofFn θ) (List.ofFn g) = List.ofFn (gumbelSoftmaxF τ g θ) := by
  rw [listGumbel]
  simp only [zipWith_ofFn, List.map_ofFn, List.sum_ofFn]
  rfl

lemma diff_exp_affine {n : ℕ} (τ c : ℝ) (j : Fin n) :
    Differentiable ℝ (fun θ : Fin n → ℝ => Real.exp ((θ j + c) / τ)) := by
  have hproj : Differentiable ℝ (fun θ : Fin n → ℝ => θ j) :=
    (ContinuousLinearMap.proj j : ((Fin n) → ℝ) →L[ℝ] ℝ).differentiable
  have h1 : Differentiable ℝ (fun θ : Fin n → ℝ => (θ j + c) / τ) := by
    simp only [div_eq_mul_inv]
    exact (hproj.add_const c).mul_const τ⁻¹
  exact h1.exp

lemma diff_gumbelSoftmaxF {n : ℕ} (τ : ℝ) (g : Fin n → ℝ) (i : Fin n) :
    Differentiable ℝ (fun θ : Fin n → ℝ => gumbelSoftmaxF τ g θ i) := by
  have hden : Differentiable ℝ (fun θ : Fin n → ℝ => ∑ j, Real.exp ((θ j + g j) / τ)) :=
    Differentiable.sum (fun j _ => diff_exp_affine τ (g j) j)
  have hpos : ∀ θ : Fin n → ℝ, 0 < ∑ j, Real.exp ((θ j + g j) / τ) := by
    intro θ
    exact Finset.sum_pos (fun j _ => Real.exp_pos _) ⟨i, Finset.mem_univ i⟩
  simp only [gumbelSoftmaxF, div_eq_mul_inv]
  exact (diff_exp_affine τ (g i) i).mul (hden.inv (fun θ => (hpos θ).ne'))

lemma gumbelSoftmaxF_pos {n : ℕ} (τ : ℝ) (g θ : Fin n → ℝ) (i : Fin n) :
    0 < gumbelSoftmaxF τ g θ i := by
  rw [gumbelSoftmaxF]
  exact div_pos (Real.exp_pos _)
    (Finset.sum_pos (fun j _ => Real.exp_pos _) ⟨i, Finset.mem_univ i⟩)

/-- C1: modulo the Gumbel noise drawn in a forward pass, the Gumbel-Softmax
weights are the smooth function `gumbelSoftmaxF` of the theta vector
(`listGumbel` factors through it), the latency term
`alpha * lat_loss.pow(beta)` is a differentiable function of theta whenever
the latency-row entries are nonnegative (hence so of the selection weights),
and consequently the combined loss `ce + alpha * lat_loss.pow(beta)` is
differentiable in theta whenever the data term is. -/
theorem c1_latency_term_differentiable {n m : ℕ} (α β τ C B : ℝ)
    (g : Fin m → Fin n → ℝ) (s : Fin n → ℝ)
    (_hτ : 0 < τ) (hs : ∀ i, 0 ≤ s i) (hC : 0 ≤ C) (hB : 0 < B) :
    (∀ θ gb : Fin n → ℝ,
        listGumbel τ (List.ofFn θ) (List.ofFn gb) = List.ofFn (gumbelSoftmaxF τ gb θ))
    ∧ Differentiable ℝ (latencyTermOfTheta α β τ C B g s)
    ∧ (∀ ce : (Fin n → ℝ) → ℝ, Differentiable ℝ ce →
        Differentiable ℝ (fun θ => ce θ + latencyTermOfTheta α β τ C B g s θ)) := by
  have hFdiff : Differentiable ℝ
      (fun θ : Fin n → ℝ => ∑ b, ∑ i, gumbelSoftmaxF τ (g b) θ i * s i) :=
    Differentiable.sum (fun b _ =>
      Differentiable.sum (fun i _ => (diff_gumbelSoftmaxF τ (g b) i).mul_const (s i)))
  have hlatdiff : Differentiable ℝ (latencyTermOfTheta α β τ C B g s) := by
    by_cases hall : ∀ i, s i = 0
    · have hfz : ∀ θ : Fin n → ℝ, (∑ b, ∑ i, gumbelSoftmaxF τ (g b) θ i * s i) = 0 := by
        intro θ
        refine Finset.sum_eq_zero (fun b _ => Finset.sum_eq_zero (fun i _ => ?_))
        rw [hall i, mul_zero]
      have hconst : latencyTermOfTheta α β τ C B g s =
          fun _ => α * Real.rpow ((C + 0) / B) β := by
        funext θ
        rw [latencyTermOfTheta, latencyLossOfTheta, hfz θ]
      rw [hconst]
      exact differentiable_const _
    · push_neg at hall
      obtain ⟨i0, hi0⟩ := hall
      have hsi0 : 0 < s i0 := lt_of_le_of_ne (hs i0) (Ne.symm hi0)
      by_cases hm : m = 0
      · subst hm
        have hfz : ∀ θ : Fin n → ℝ,
            (∑ b : Fin 0, ∑ i, gumbelSoftmaxF τ (g b) θ i * s i) = 0 := by
          intro θ; simp
        have hconst : latencyTermOfTheta α β τ C B g s =
            fun _ => α * Real.rpow ((C + 0) / B) β := by
          funext θ
          rw [latencyTermOfTheta, latencyLossOfTheta, hfz θ]
        rw [hconst]
        exact differentiable_const _
      · have hmpos : 0 < m := Nat.pos_of_ne_zero hm
        have hfpos : ∀ θ : Fin n → ℝ,
            0 < ∑ b, ∑ i, gumbelSoftmaxF τ (g b) θ i * s i := by
          intro θ
          refine Finset.sum_pos (fun b _ => ?_) ⟨⟨0, hmpos⟩, Finset.mem_univ _⟩
          refine Finset.sum_pos' (fun i _ => mul_nonneg (gumbelSoftmaxF_pos τ (g b) θ i).le (hs i))
            ⟨i0, Finset.mem_univ i0, mul_pos (gumbelSoftmaxF_pos τ (g b) θ i0) hsi0⟩
        have hlatpos : ∀ θ, 0 < latencyLossOfTheta τ C B g s θ := by
          intro θ
          rw [latencyLossOfTheta]
          exact div_pos (add_pos_of_nonneg_of_pos hC (hfpos θ)) hB
        have hlldiff : Differentiable ℝ (latencyLossOfTheta τ C B g s) := by
          have heq : latencyLossOfTheta τ C B g s =
              fun θ => (C + ∑ b, ∑ i, gumbelSoftmaxF τ (g b) θ i * s i) * B⁻¹ := by
            funext θ
            rw [latencyLossOfTheta, div_eq_mul_inv]
          rw [heq]
          exact (hFdiff.const_add C).mul_const B⁻¹
        intro θ
        exact ((hlldiff θ).rpow_const (Or.inl (hlatpos θ).ne')).const_mul α
  exact ⟨fun θ gb => listGumbel_ofFn τ θ gb, hlatdiff, fun ce hce => hce.add hlatdiff⟩

/-- C1 witness: a single searchable layer with one candidate of unit latency,
unit batch, zero noise, temperature 5 and the default loss coefficients. -/
theorem c1_witness :
    ((0 : ℝ) < 5 ∧ (∀ i : Fin 1, (0 : ℝ) ≤ (fun _ : Fin 1 => (1 : ℝ)) i) ∧
      (0 : ℝ) ≤ 0 ∧ (0 : ℝ) < 2) ∧
    ((∀ θ gb : Fin 1 → ℝ,
        listGumbel 5 (List.ofFn θ) (List.ofFn gb) = List.ofFn (gumbelSoftmaxF 5 gb θ))
    ∧ Differentiable ℝ
        (latencyTermOfTheta (1 / 5) (3 / 5) 5 0 2 (fun _ : Fin 1 => fun _ : Fin 1 => (0 : ℝ))
          (fun _ : Fin 1 => (1 : ℝ)))
    ∧ (∀ ce : (Fin 1 → ℝ) → ℝ, Differentiable ℝ ce →
        Differentiable ℝ (fun θ => ce θ +
          latencyTermOfTheta (1 / 5) (3 / 5) 5 0 2 (fun _ : Fin 1 => fun _ : Fin 1 => (0 : ℝ))
            (fun _ : Fin 1 => (1 : ℝ)) θ))) :=
  ⟨⟨by norm_num, fun i => by norm_num, le_refl 0, by norm_num⟩,
    c1_latency_term_differentiable (1 / 5) (3 / 5) 5 0 2
      (fun _ => fun _ => 0) (fun _ => 1) (by norm_num) (fun i => by norm_num)
      (le_refl 0) (by norm_num)⟩
